import Mathlib

/-!
Verification development for the fixed-income engine.

The Python sources are embedded shallowly:
* floats are modelled as exact rationals (ℚ);
* `float('inf')` (returned by `calculate_price` for yields ≤ -1) is modelled
  by `⊤` in `WithTop ℚ`;
* numpy arrays are lists of rationals;
* bounded `for` loops become fuel recursion;
* the cash-flow dictionaries `{'time': t, 'amount': a}` become the
  structure `CashFlow`.

Exponents: the source discounts with `(1 + y/f) ** (f * t)`, a real power.
Every schedule the program builds (`generate_cash_flows`) has
`t = period / f`, so `f * t` is the integer number of compounding periods.
The embedding takes the exponent `(f * t).num`, which agrees with the source
whenever `f * t` is an integer; theorems that need the exponent restrict to
that (reachable) domain.
-/

namespace FIE

/-- CashFlow mirrors the dictionaries produced by
`BondAnalytics.generate_cash_flows`: a payment `amount` at year `time`. -/
structure CashFlow where
  time : ℚ
  amount : ℚ
deriving DecidableEq

/-- Integer number of compounding periods for a payment at year `t` under
frequency `freq`; equals the source's real exponent `freq * t` whenever that
product is an integer (true of every schedule built by the program). -/
def discount_exponent (freq : ℕ) (t : ℚ) : ℤ :=
  ((freq : ℚ) * t).num

/-- Finite part of `BondAnalytics.calculate_price`: the discounted cash-flow
sum `Σ amount / (1 + y/freq) ^ (freq * time)` from src/pricing_utils.py. -/
def price_sum (y : ℚ) (cfs : List CashFlow) (freq : ℕ) : ℚ :=
  (cfs.map (fun cf => cf.amount / (1 + y / (freq : ℚ)) ^ discount_exponent freq cf.time)).sum

/-- Embedding of `BondAnalytics.calculate_price`: yields at or below -1 hit
the logic floor and return `float('inf')`, modelled as `⊤`. -/
def calculate_price (y : ℚ) (cfs : List CashFlow) (freq : ℕ) : WithTop ℚ :=
  if y ≤ -1 then ⊤ else (price_sum y cfs freq : ℚ)

/-- Python's `round` (banker's rounding, half to even) on a rational. -/
def pyRound (x : ℚ) : ℤ :=
  let f := ⌊x⌋
  let r := x - (f : ℚ)
  if r < 1/2 then f
  else if 1/2 < r then f + 1
  else if Even f then f else f + 1

/-- Embedding of `BondAnalytics.generate_cash_flows`: periodic coupons of
`coupon_rate / frequency * principal`, principal added to the final payment. -/
def generate_cash_flows (principal coupon_rate : ℚ) (frequency : ℕ)
    (years_to_maturity : ℚ) : List CashFlow :=
  let total_periods := (pyRound (years_to_maturity * (frequency : ℚ))).toNat
  let coupon_payment := coupon_rate / (frequency : ℚ) * principal
  (List.range total_periods).map (fun k =>
    let period : ℕ := k + 1
    { time := (period : ℚ) / (frequency : ℚ)
      amount := coupon_payment + (if period = total_periods then principal else 0) })

/-- Forward-difference numerical derivative used inside `solve_ytm`
(`eps = 1e-7` in the source). -/
def numDeriv (y : ℚ) (cfs : List CashFlow) (freq : ℕ) : ℚ :=
  (price_sum (y + 1/10^7) cfs freq - price_sum y cfs freq) / (1/10^7)

/-- Mutable locals of the `solve_ytm` loop.  The source initialises
`low = -0.20`, `high = 1.0` before the loop and never reassigns them; carrying
them in the state lets that invariant be stated and proved. -/
structure SolveState where
  ytm : ℚ
  low : ℚ
  high : ℚ
deriving DecidableEq

/-- One iteration of the `solve_ytm` loop.  `Sum.inr y` models the early
`return ytm` (taken before the clamp); `Sum.inl s` is the state carried into
the next iteration, with `ytm` clamped by `max (min ytm high) low` exactly as
in the source.  In exact rational arithmetic the `math.isnan(derivative)`
disjunct of the bisection guard never fires, so only the
`abs(derivative) < 1e-12` test remains. -/
def solveStep (target : ℚ) (cfs : List CashFlow) (freq : ℕ) (s : SolveState) :
    SolveState ⊕ ℚ :=
  let price := price_sum s.ytm cfs freq
  let derivative := numDeriv s.ytm cfs freq
  if |derivative| < 1/10^12 then
    let mid := (s.low + s.high) / 2
    Sum.inl ⟨max (min mid s.high) s.low, s.low, s.high⟩
  else
    let diff := target - price
    if |diff| < 1/10^8 then
      Sum.inr s.ytm
    else
      Sum.inl ⟨max (min (s.ytm + diff / derivative) s.high) s.low, s.low, s.high⟩

/-- Fuel recursion for the `for i in range(100)` loop of `solve_ytm`; when the
fuel runs out the last computed `ytm` is returned. -/
def solveLoop (target : ℚ) (cfs : List CashFlow) (freq : ℕ) :
    ℕ → SolveState → ℚ
  | 0, s => s.ytm
  | n + 1, s =>
    match solveStep target cfs freq s with
    | Sum.inr y => y
    | Sum.inl s2 => solveLoop target cfs freq n s2

/-- Embedding of `BondAnalytics.solve_ytm` (the source's default guess is
0.05; callers pass it explicitly here).  Faithful to the source for
`guess > -1`: inside the bracket every iterate is clamped into
`[-0.20, 1.0]`, so the `float('inf')` branch of `calculate_price` is never
reached. -/
def solve_ytm (target : ℚ) (cfs : List CashFlow) (freq : ℕ) (guess : ℚ) : ℚ :=
  solveLoop target cfs freq 100 ⟨guess, -1/5, 1⟩

/-- State after `n` iterations of the `solve_ytm` loop, `none` once the loop
has early-returned; used to state invariants over every execution. -/
def solveStates (target : ℚ) (cfs : List CashFlow) (freq : ℕ) :
    ℕ → SolveState → Option SolveState
  | 0, s => some s
  | n + 1, s =>
    match solveStep target cfs freq s with
    | Sum.inr _ => none
    | Sum.inl s2 => solveStates target cfs freq n s2

/-- Nelson-Siegel parameter vector of `YieldCurve` (src/yield_curve.py).  The
claims under verification only touch the four constructor parameters, never
`get_yield` (whose `exp` is real-valued), so the structure carries exactly
the parameters. -/
structure YieldCurve where
  beta0 : ℚ
  beta1 : ℚ
  beta2 : ℚ
  tau : ℚ
deriving DecidableEq

/-- Embedding of the loop body of `ScenarioGenerator.generate_scenarios`,
parameterised by the sampled shock triples (the source draws them with
`np.random.normal(0, volatility, (n_scenarios, 3))`).  `beta0` is floored at
0.001; `tau` is taken from the base curve. -/
def generate_scenarios (base : YieldCurve) (shocks : List (ℚ × ℚ × ℚ)) :
    List YieldCurve :=
  shocks.map (fun sh =>
    { beta0 := max (1/1000) (base.beta0 + sh.1)
      beta1 := base.beta1 + sh.2.1
      beta2 := base.beta2 + sh.2.2
      tau := base.tau })

/-- With `volatility = 0`, `np.random.normal(0, 0, (n, 3))` returns the mean
0 exactly, so the sampled shocks are `n` zero triples. -/
def generate_scenarios_zero_vol (base : YieldCurve) (n : ℕ) : List YieldCurve :=
  generate_scenarios base (List.replicate n (0, 0, 0))

/-- Embedding of `ScenarioGenerator.apply_manual_shock` from
src/yield_curve.py: three recognised shock kinds, any other kind falls
through to `return self.base_curve`. -/
def apply_manual_shock (base : YieldCurve) (kind : String) (magnitude : ℚ) :
    YieldCurve :=
  if kind = "parallel" then
    ⟨base.beta0 + magnitude, base.beta1, base.beta2, base.tau⟩
  else if kind = "steepener" then
    ⟨base.beta0 + magnitude, base.beta1 - magnitude, base.beta2, base.tau⟩
  else if kind = "flattener" then
    ⟨base.beta0 - magnitude, base.beta1 + magnitude, base.beta2, base.tau⟩
  else base

/-- Ascending sort modelling numpy's internal sort in `np.percentile`
(`List.insertionSort` is structurally recursive, hence evaluable; it yields
the same ascending sequence as any comparison sort). -/
def np_sort (l : List ℚ) : List ℚ :=
  l.insertionSort (· ≤ ·)

/-- Embedding of `np.percentile(a, q)` with the default linear interpolation:
virtual index `h = (n-1) * q/100`, result `s[⌊h⌋] + (h-⌊h⌋) * (s[⌊h⌋+1] -
s[⌊h⌋])` over the ascending sort `s`; when `⌊h⌋` is the last index the upper
neighbour defaults to the lower one.  Defined for nonempty input (numpy
raises on an empty array). -/
def np_percentile (l : List ℚ) (q : ℚ) : ℚ :=
  let s := np_sort l
  let h : ℚ := ((l.length : ℚ) - 1) * q / 100
  let i : ℕ := (⌊h⌋).toNat
  let lo := s.getD i 0
  let hi := s.getD (i + 1) lo
  lo + (h - (⌊h⌋ : ℚ)) * (hi - lo)

/-- Embedding of `RiskEngine.calculate_var` from src/risk_engine.py. -/
def calculate_var (losses : List ℚ) (confidence_level : ℚ) : ℚ :=
  np_percentile losses (confidence_level * 100)

/-- Embedding of `RiskEngine.calculate_expected_shortfall`: mean of the
losses at or above the VaR (numpy boolean mask keeps order), falling back to
the VaR itself when no loss qualifies. -/
def calculate_expected_shortfall (losses : List ℚ) (confidence_level : ℚ) : ℚ :=
  let var := calculate_var losses confidence_level
  let tail_losses := losses.filter (fun l => var ≤ l)
  if tail_losses.length ≠ 0 then tail_losses.sum / (tail_losses.length : ℚ)
  else var

/-- Row of the bond-universe DataFrame as consumed by
`PortfolioOptimizer._cvar_objective` and `RiskEngine._get_cached_cfs`. -/
structure BondRow where
  id : ℕ
  principal : ℚ
  coupon : ℚ
  frequency : ℕ
  maturity : ℚ
  market_price : ℚ
deriving DecidableEq

/-- Embedding of `RiskEngine._get_cached_cfs`: the per-id memoisation is
transparent (for distinct ids the cached schedule is exactly the generated
one), so the model regenerates the schedule. -/
def get_cached_cfs (b : BondRow) : List CashFlow :=
  generate_cash_flows b.principal b.coupon b.frequency b.maturity

/-- Per-bond term of the scenario loss in `_cvar_objective`
(src/optimizer.py lines 36-46): non-positive market prices are replaced by
the 0.01 floor before BOTH the numerator and the denominator of the unit
loss.  A scenario is modelled by its yield function `curve : maturity → ℚ`
(the source calls `yield_curve_scenario.get_yield`). -/
def bond_unit_loss (b : BondRow) (curve : ℚ → ℚ) : ℚ :=
  let scenario_price := price_sum (curve b.maturity) (get_cached_cfs b) b.frequency
  let initial_market_price := if b.market_price ≤ 0 then 1/100 else b.market_price
  (initial_market_price - scenario_price) / initial_market_price

/-- Portfolio loss of one scenario: weighted sum of unit losses, weights
aligned with the bond rows by position. -/
def scenario_loss (bond_data : List BondRow) (weights : List ℚ)
    (curve : ℚ → ℚ) : ℚ :=
  ((bond_data.zip weights).map (fun p => p.2 * bond_unit_loss p.1 curve)).sum

/-- Embedding of `PortfolioOptimizer._cvar_objective`: splits the decision
vector into `weights ++ [alpha]`, builds per-scenario losses, and applies the
Uryasev-Rockafellar formula `alpha + (1/(S*(1-c))) * Σ max(loss - alpha, 0)`. -/
def cvar_objective (weights_plus_alpha : List ℚ) (bond_data : List BondRow)
    (scenarios : List (ℚ → ℚ)) (confidence_level : ℚ) : ℚ :=
  let number_of_bonds := bond_data.length
  let weights := weights_plus_alpha.take number_of_bonds
  let alpha_var_proxy := weights_plus_alpha.getD number_of_bonds 0
  let scenario_losses := scenarios.map (scenario_loss bond_data weights)
  let tail_deviation := scenario_losses.map (fun l => max (l - alpha_var_proxy) 0)
  alpha_var_proxy +
    (1 / ((scenarios.length : ℚ) * (1 - confidence_level))) * tail_deviation.sum

/-- Bond characteristics row used by `PortfolioConstraints.check_constraints`
(the `mod_duration` / `convexity` columns of `get_bond_characteristics`). -/
structure BondChar where
  mod_duration : ℚ
  convexity : ℚ
deriving DecidableEq

/-- Configuration fields set in `PortfolioConstraints.__init__`. -/
structure PortfolioConstraints where
  target_duration : Option ℚ
  target_convexity : Option ℚ
  max_weight : ℚ
  min_weight : ℚ
  dur_tol : ℚ
  conv_tol : ℚ
deriving DecidableEq

/-- Embedding of `np.dot` on two 1-D arrays: defined when the lengths agree,
`none` models the `ValueError` numpy raises on misaligned shapes. -/
def np_dot (a b : List ℚ) : Option ℚ :=
  if a.length = b.length then some (((a.zip b).map (fun p => p.1 * p.2)).sum)
  else none

/-- Maximum of a numpy array (`np.max`); the source only evaluates it on
arrays guaranteed nonempty by the guarding `any(...)`. -/
def npMax : List ℚ → ℚ
  | [] => 0
  | x :: xs => xs.foldl max x

/-- Minimum of a numpy array (`np.min`), same proviso as `npMax`. -/
def npMin : List ℚ → ℚ
  | [] => 0
  | x :: xs => xs.foldl min x

/-- Violations dictionary returned by `check_constraints`; each absent key is
`none`. -/
structure Violations where
  budget : Option ℚ
  max_weight_excess : Option ℚ
  min_weight_violation : Option ℚ
  duration_mismatch : Option ℚ
  convexity_mismatch : Option ℚ
deriving DecidableEq

/-- Embedding of `PortfolioConstraints.check_constraints`
(src/constraints.py lines 42-68).  The outer `Option` models Python
exceptions: the only failure point is the `np.dot` inside the duration /
convexity checks, which raises when a target is set and the weights and the
characteristics table have different lengths. -/
def check_constraints (cfg : PortfolioConstraints) (weights : List ℚ)
    (chars : List BondChar) : Option Violations :=
  let budget := if |weights.sum - 1| > 1/10^6 then some (weights.sum - 1) else none
  let mwe :=
    if weights.any (fun w => cfg.max_weight + 1/10^7 < w) then
      some (npMax weights - cfg.max_weight)
    else none
  let mwv :=
    if weights.any (fun w => w < cfg.min_weight - 1/10^7) then
      some (npMin weights)
    else none
  let dur_result : Option (Option ℚ) :=
    match cfg.target_duration with
    | none => some none
    | some td =>
      match np_dot weights (chars.map (fun ch => ch.mod_duration)) with
      | none => none
      | some curr_dur =>
        some (if |curr_dur - td| > cfg.dur_tol then some (curr_dur - td) else none)
  let conv_result : Option (Option ℚ) :=
    match cfg.target_convexity with
    | none => some none
    | some tc =>
      match np_dot weights (chars.map (fun ch => ch.convexity)) with
      | none => none
      | some curr_conv =>
        some (if |curr_conv - tc| > cfg.conv_tol then some (curr_conv - tc) else none)
  match dur_result, conv_result with
  | some dur, some conv => some ⟨budget, mwe, mwv, dur, conv⟩
  | _, _ => none

/-- L1 turnover between consecutive weight vectors,
`np.sum(np.abs(new_weights - current_weights))` in
`PortfolioSimulator.run_simulation`. -/
def turnover (new_weights current_weights : List ℚ) : ℚ :=
  ((new_weights.zip current_weights).map (fun p => |p.1 - p.2|)).sum

/-- History entry recorded at each simulation step; the claim under
verification concerns the `turnover` field (the duration, convexity and
benchmark-yield fields do not interact with it and are omitted). -/
structure HistoryEntry where
  step : ℕ
  turnover : ℚ
deriving DecidableEq

/-- Embedding of the recording loop of `PortfolioSimulator.run_simulation`:
starting from the initial weights, each step receives the re-optimised
weights (the SLSQP optimizer is abstracted as the list of its outputs, one
per step), records the L1 turnover against the previous weights, and carries
the new weights forward. -/
def run_sim_history (current_weights : List ℚ) :
    List (List ℚ) → ℕ → List HistoryEntry
  | [], _ => []
  | new_weights :: rest, i =>
    ⟨i + 1, turnover new_weights current_weights⟩ ::
      run_sim_history new_weights rest (i + 1)

/-! Helper lemmas about the `solve_ytm` loop. -/

lemma solveLoop_succ (target : ℚ) (cfs : List CashFlow) (freq : ℕ) (n : ℕ)
    (s : SolveState) :
    solveLoop target cfs freq (n + 1) s =
      match solveStep target cfs freq s with
      | Sum.inr y => y
      | Sum.inl s2 => solveLoop target cfs freq n s2 := rfl

lemma solveLoop_early (target : ℚ) (cfs : List CashFlow) (freq : ℕ) (n : ℕ)
    (s : SolveState) (y : ℚ) (h : solveStep target cfs freq s = Sum.inr y) :
    solveLoop target cfs freq (n + 1) s = y := by
  rw [solveLoop_succ, h]

lemma solveLoop_stepped (target : ℚ) (cfs : List CashFlow) (freq : ℕ) (n : ℕ)
    (s s2 : SolveState) (h : solveStep target cfs freq s = Sum.inl s2) :
    solveLoop target cfs freq (n + 1) s = solveLoop target cfs freq n s2 := by
  rw [solveLoop_succ, h]

lemma solveLoop_fixed (target : ℚ) (cfs : List CashFlow) (freq : ℕ)
    (s : SolveState) (h : solveStep target cfs freq s = Sum.inl s) :
    ∀ n, solveLoop target cfs freq n s = s.ytm
  | 0 => rfl
  | n + 1 => by
    rw [solveLoop_stepped target cfs freq n s s h]
    exact solveLoop_fixed target cfs freq s h n

/-- Whatever branch is taken, a continuing iteration leaves `low` and `high`
untouched. -/
lemma solveStep_inl_frame (target : ℚ) (cfs : List CashFlow) (freq : ℕ)
    (s s2 : SolveState) (h : solveStep target cfs freq s = Sum.inl s2) :
    s2.low = s.low ∧ s2.high = s.high := by
  unfold solveStep at h
  by_cases hd : |numDeriv s.ytm cfs freq| < 1/10^12
  · rw [if_pos hd] at h
    cases h
    exact ⟨rfl, rfl⟩
  · rw [if_neg hd] at h
    by_cases hdiff : |target - price_sum s.ytm cfs freq| < 1/10^8
    · rw [if_pos hdiff] at h
      cases h
    · rw [if_neg hdiff] at h
      cases h
      exact ⟨rfl, rfl⟩

/-- A continuing iteration clamps the new iterate into `[low, high]`. -/
lemma solveStep_inl_clamped (target : ℚ) (cfs : List CashFlow) (freq : ℕ)
    (s s2 : SolveState) (hlh : s.low ≤ s.high)
    (h : solveStep target cfs freq s = Sum.inl s2) :
    s.low ≤ s2.ytm ∧ s2.ytm ≤ s.high := by
  unfold solveStep at h
  by_cases hd : |numDeriv s.ytm cfs freq| < 1/10^12
  · rw [if_pos hd] at h
    cases h
    exact ⟨le_max_right _ _, max_le (min_le_right _ _) hlh⟩
  · rw [if_neg hd] at h
    by_cases hdiff : |target - price_sum s.ytm cfs freq| < 1/10^8
    · rw [if_pos hdiff] at h
      cases h
    · rw [if_neg hdiff] at h
      cases h
      exact ⟨le_max_right _ _, max_le (min_le_right _ _) hlh⟩

/-- An early return hands back the current iterate unchanged. -/
lemma solveStep_inr_ytm (target : ℚ) (cfs : List CashFlow) (freq : ℕ)
    (s : SolveState) (y : ℚ) (h : solveStep target cfs freq s = Sum.inr y) :
    y = s.ytm := by
  unfold solveStep at h
  by_cases hd : |numDeriv s.ytm cfs freq| < 1/10^12
  · rw [if_pos hd] at h
    cases h
  · rw [if_neg hd] at h
    by_cases hdiff : |target - price_sum s.ytm cfs freq| < 1/10^8
    · rw [if_pos hdiff] at h
      cases h
      rfl
    · rw [if_neg hdiff] at h
      cases h

lemma solveLoop_bounds (target : ℚ) (cfs : List CashFlow) (freq : ℕ) :
    ∀ (n : ℕ) (s : SolveState), s.low = -1/5 → s.high = 1 →
      -1/5 ≤ s.ytm → s.ytm ≤ 1 →
      -1/5 ≤ solveLoop target cfs freq n s ∧ solveLoop target cfs freq n s ≤ 1
  | 0, s, _, _, hy1, hy2 => ⟨hy1, hy2⟩
  | n + 1, s, hl, hh, hy1, hy2 => by
    cases hstep : solveStep target cfs freq s with
    | inr y =>
      rw [solveLoop_early target cfs freq n s y hstep]
      rw [solveStep_inr_ytm target cfs freq s y hstep]
      exact ⟨hy1, hy2⟩
    | inl s2 =>
      rw [solveLoop_stepped target cfs freq n s s2 hstep]
      have hframe := solveStep_inl_frame target cfs freq s s2 hstep
      have hclamp := solveStep_inl_clamped target cfs freq s s2
        (by rw [hl, hh]; norm_num) hstep
      exact solveLoop_bounds target cfs freq n s2
        (hframe.1.trans hl) (hframe.2.trans hh)
        (hl ▸ hclamp.1) (hh ▸ hclamp.2)

lemma solveStates_inv (target : ℚ) (cfs : List CashFlow) (freq : ℕ) :
    ∀ (n : ℕ) (s s2 : SolveState), s.low = -1/5 → s.high = 1 →
      solveStates target cfs freq n s = some s2 →
      s2.low = -1/5 ∧ s2.high = 1
  | 0, s, s2, hl, hh, h => by
    cases h
    exact ⟨hl, hh⟩
  | n + 1, s, s2, hl, hh, h => by
    rw [show solveStates target cfs freq (n + 1) s =
        match solveStep target cfs freq s with
        | Sum.inr _ => none
        | Sum.inl s3 => solveStates target cfs freq n s3 from rfl] at h
    cases hstep : solveStep target cfs freq s with
    | inr y => rw [hstep] at h; cases h
    | inl s3 =>
      rw [hstep] at h
      have hframe := solveStep_inl_frame target cfs freq s s3 hstep
      exact solveStates_inv target cfs freq n s3 s2
        (hframe.1.trans hl) (hframe.2.trans hh) h

/-- Claim C10: throughout every execution of `solve_ytm` the bracket
variables `low` and `high` keep their initial values `-0.20` and `1.0` (no
iteration updates them), so every bisection fallback — taken when the
numerical derivative has absolute value below `1e-12` (the `isnan` disjunct
cannot fire in exact arithmetic) — sets `ytm` to the constant midpoint
`0.4`, regardless of the target price or the current iterate. -/
theorem c10_bracket_constant_bisection_midpoint (target : ℚ)
    (cfs : List CashFlow) (freq : ℕ) (guess : ℚ) :
    (∀ (n : ℕ) (s : SolveState),
        solveStates target cfs freq n ⟨guess, -1/5, 1⟩ = some s →
        s.low = -1/5 ∧ s.high = 1) ∧
    (∀ s : SolveState, s.low = -1/5 → s.high = 1 →
        |numDeriv s.ytm cfs freq| < 1/10^12 →
        solveStep target cfs freq s = Sum.inl ⟨2/5, -1/5, 1⟩) ∧
    solve_ytm target cfs freq guess =
      solveLoop target cfs freq 100 ⟨guess, -1/5, 1⟩ := by
  refine ⟨fun n s h => solveStates_inv target cfs freq n _ s rfl rfl h,
    fun s hl hh hd => ?_, rfl⟩
  unfold solveStep
  rw [if_pos hd, hl, hh]
  norm_num

/-- Claim C6 (counterexample): with initial guess `5.0` and target equal to
the price at that guess, the very first iteration early-returns the raw
guess, which lies outside the bound interval `[-0.20, 1.0]`. -/
theorem c6_counterexample :
    1 < solve_ytm (50/3) [⟨1, 100⟩] 1 5 := by
  have hstep : solveStep (50/3) [⟨1, 100⟩] 1 ⟨5, -1/5, 1⟩ = Sum.inr 5 := by
    unfold solveStep numDeriv price_sum discount_exponent
    norm_num [abs_lt]
  have : solve_ytm (50/3) [⟨1, 100⟩] 1 5 = 5 := by
    unfold solve_ytm
    rw [show (100 : ℕ) = 99 + 1 from rfl]
    exact solveLoop_early (50/3) [⟨1, 100⟩] 1 99 _ 5 hstep
  rw [this]
  norm_num

/-- Claim C6 (amended): the value returned by `solve_ytm` lies within the
bound interval `[-0.20, 1.0]` on every return path provided the initial
guess does; the only escape is the early return of the very first iteration,
which hands back the raw (unclamped) guess. -/
theorem c6_result_bounded (target : ℚ) (cfs : List CashFlow) (freq : ℕ)
    (guess : ℚ) (h1 : -1/5 ≤ guess) (h2 : guess ≤ 1) :
    -1/5 ≤ solve_ytm target cfs freq guess ∧
      solve_ytm target cfs freq guess ≤ 1 :=
  solveLoop_bounds target cfs freq 100 ⟨guess, -1/5, 1⟩ rfl rfl h1 h2

/-- Claim C6 (witness): the amended theorem applied at a concrete input. -/
theorem c6_witness :
    -1/5 ≤ solve_ytm 0 [] 1 (1/2) ∧ solve_ytm 0 [] 1 (1/2) ≤ 1 :=
  c6_result_bounded 0 [] 1 (1/2) (by norm_num) (by norm_num)

/-- Claim C5 (counterexample): a base curve with `beta0 = 0 < 0.001` hits
the floor even at zero volatility — the generated scenario differs from the
base curve. -/
theorem c5_counterexample :
    (generate_scenarios_zero_vol ⟨0, 0, 0, 1⟩ 1).getD 0 ⟨0, 0, 0, 1⟩ ≠
      (⟨0, 0, 0, 1⟩ : YieldCurve) := by
  unfold generate_scenarios_zero_vol generate_scenarios
  norm_num [YieldCurve.mk.injEq]

/-- Claim C5 (amended): `generate_scenarios(n, volatility=0)` returns
exactly `n` curves whose `beta1`, `beta2` and `tau` equal the base curve's
and whose `beta0` equals `max(0.001, base.beta0)`; in particular all four
parameters equal the base curve's whenever `base.beta0 ≥ 0.001`. -/
theorem c5_zero_vol_scenarios (base : YieldCurve) (n : ℕ) :
    (generate_scenarios_zero_vol base n).length = n ∧
    (∀ c ∈ generate_scenarios_zero_vol base n,
      c = ⟨max (1/1000) base.beta0, base.beta1, base.beta2, base.tau⟩) ∧
    (1/1000 ≤ base.beta0 →
      ∀ c ∈ generate_scenarios_zero_vol base n, c = base) := by
  refine ⟨by simp [generate_scenarios_zero_vol, generate_scenarios],
    fun c hc => ?_, fun hfloor c hc => ?_⟩
  · simp only [generate_scenarios_zero_vol, generate_scenarios,
      List.mem_map, List.mem_replicate] at hc
    obtain ⟨sh, ⟨-, rfl⟩, rfl⟩ := hc
    simp
  · simp only [generate_scenarios_zero_vol, generate_scenarios,
      List.mem_map, List.mem_replicate] at hc
    obtain ⟨sh, ⟨-, rfl⟩, rfl⟩ := hc
    simp only [add_zero]
    rw [max_eq_right hfloor]

/-- Claim C7: for every shock kind other than "parallel", "steepener" and
"flattener", `apply_manual_shock` returns the base curve unchanged (and is
total, so it never raises); for "steepener" it returns the base curve with
`beta0` increased and `beta1` decreased by the magnitude, `beta2` and `tau`
unchanged. -/
theorem c7_manual_shock (base : YieldCurve) (kind : String) (magnitude : ℚ) :
    (kind ≠ "parallel" → kind ≠ "steepener" → kind ≠ "flattener" →
      apply_manual_shock base kind magnitude = base) ∧
    apply_manual_shock base "steepener" magnitude =
      ⟨base.beta0 + magnitude, base.beta1 - magnitude, base.beta2, base.tau⟩ := by
  constructor
  · intro h1 h2 h3
    simp [apply_manual_shock, h1, h2, h3]
  · simp [apply_manual_shock]

lemma solveStates_succ (target : ℚ) (cfs : List CashFlow) (freq : ℕ) (n : ℕ)
    (s : SolveState) :
    solveStates target cfs freq (n + 1) s =
      match solveStep target cfs freq s with
      | Sum.inr _ => none
      | Sum.inl s2 => solveStates target cfs freq n s2 := rfl

lemma solveStates_early (target : ℚ) (cfs : List CashFlow) (freq : ℕ) (n : ℕ)
    (s : SolveState) (y : ℚ) (h : solveStep target cfs freq s = Sum.inr y) :
    solveStates target cfs freq (n + 1) s = none := by
  rw [solveStates_succ, h]

/-- An early return can fire only through the `abs(diff) < 1e-8` test. -/
lemma solveStep_inr_guard (target : ℚ) (cfs : List CashFlow) (freq : ℕ)
    (s : SolveState) (y : ℚ) (h : solveStep target cfs freq s = Sum.inr y) :
    |target - price_sum s.ytm cfs freq| < 1/10^8 := by
  unfold solveStep at h
  by_cases hd : |numDeriv s.ytm cfs freq| < 1/10^12
  · rw [if_pos hd] at h
    cases h
  · rw [if_neg hd] at h
    by_cases hdiff : |target - price_sum s.ytm cfs freq| < 1/10^8
    · exact hdiff
    · rw [if_neg hdiff] at h
      cases h

/-- When the loop early-returns (its only convergence signal), the returned
iterate reprices the schedule to within `1e-8` of the target. -/
lemma solveStates_none_price_bound (target : ℚ) (cfs : List CashFlow) (freq : ℕ) :
    ∀ (n : ℕ) (s : SolveState),
      solveStates target cfs freq n s = none →
      |target - price_sum (solveLoop target cfs freq n s) cfs freq| < 1/10^8
  | 0, s, h => by
    rw [show solveStates target cfs freq 0 s = some s from rfl] at h
    cases h
  | n + 1, s, h => by
    rw [solveStates_succ] at h
    cases hstep : solveStep target cfs freq s with
    | inr y =>
      rw [solveLoop_early target cfs freq n s y hstep,
        solveStep_inr_ytm target cfs freq s y hstep]
      exact solveStep_inr_guard target cfs freq s y hstep
    | inl s2 =>
      rw [hstep] at h
      rw [solveLoop_stepped target cfs freq n s s2 hstep]
      exact solveStates_none_price_bound target cfs freq n s2 h

/-- Claim C2 (counterexample): the round trip fails at concrete inputs in
both regimes the claim quantifies over.  First conjunct — for `y = 2`
(outside the solver bracket) on a single payment of 100 at year 1 the
target is `100/3`; from the default guess 0.05 the solver clamps into
`[-0.20, 1.0]`, exhausts its 100 iterations and returns exactly 1, off by
1.  Second conjunct — even inside the bracket, for `y = 1/2` on the tiny
schedule of a single payment `1e-9` at year 1 the target is
`1/1500000000`; the first iteration's `|target - price| < 1e-8` test
already fires at the default guess (the whole price curve is flatter than
the tolerance), so the solver early-returns 0.05, off by 0.45. -/
theorem c2_counterexample :
    (calculate_price 2 [⟨1, 100⟩] 1 = ((100/3 : ℚ) : WithTop ℚ) ∧
      1/10^6 < |solve_ytm (100/3) [⟨1, 100⟩] 1 (1/20) - 2|) ∧
    (calculate_price (1/2) [⟨1, 1/10^9⟩] 1 =
        ((1/1500000000 : ℚ) : WithTop ℚ) ∧
      1/10^6 < |solve_ytm (1/1500000000) [⟨1, 1/10^9⟩] 1 (1/20) - 1/2|) := by
  refine ⟨⟨?_, ?_⟩, ?_, ?_⟩
  · unfold calculate_price
    rw [if_neg (by norm_num)]
    norm_num [price_sum, discount_exponent]
  · have h1 : solveStep (100/3) [⟨1, 100⟩] 1 ⟨1/20, -1/5, 1⟩ =
        Sum.inl ⟨146500013/200000000, -1/5, 1⟩ := by
      unfold solveStep numDeriv price_sum discount_exponent
      norm_num [abs_lt, min_def, max_def]
    have h2 : solveStep (100/3) [⟨1, 100⟩] 1 ⟨146500013/200000000, -1/5, 1⟩ =
        Sum.inl ⟨1, -1/5, 1⟩ := by
      unfold solveStep numDeriv price_sum discount_exponent
      norm_num [abs_lt, min_def, max_def]
    have h3 : solveStep (100/3) [⟨1, 100⟩] 1 ⟨1, -1/5, 1⟩ =
        Sum.inl ⟨1, -1/5, 1⟩ := by
      unfold solveStep numDeriv price_sum discount_exponent
      norm_num [abs_lt, min_def, max_def]
    have hres : solve_ytm (100/3) [⟨1, 100⟩] 1 (1/20) = 1 := by
      unfold solve_ytm
      rw [show (100 : ℕ) = 98 + 1 + 1 from rfl]
      rw [solveLoop_stepped _ _ _ _ _ _ h1, solveLoop_stepped _ _ _ _ _ _ h2]
      exact solveLoop_fixed _ _ _ _ h3 98
    rw [hres]
    norm_num [abs_lt]
  · unfold calculate_price
    rw [if_neg (by norm_num)]
    norm_num [price_sum, discount_exponent]
  · have hstep : solveStep (1/1500000000) [⟨1, 1/10^9⟩] 1 ⟨1/20, -1/5, 1⟩ =
        Sum.inr (1/20) := by
      unfold solveStep numDeriv price_sum discount_exponent
      norm_num [abs_lt]
    have hres : solve_ytm (1/1500000000) [⟨1, 1/10^9⟩] 1 (1/20) = 1/20 := by
      unfold solve_ytm
      rw [show (100 : ℕ) = 99 + 1 from rfl]
      exact solveLoop_early _ _ _ 99 _ _ hstep
    rw [hres]
    rw [show |(1 : ℚ)/20 - 1/2| = 9/20 from by
      rw [abs_of_nonpos (by norm_num)]; norm_num]
    norm_num

/-- Claim C2 (amended): the solver's convergence signal lives in price
space, so the round trip `solve_ytm(calculate_price(y, cfs, freq), cfs,
freq)` — started from the source's default guess 0.05 — is guaranteed as
follows for yields `y` in the solver bracket `[-0.20, 1.0]`.  Whenever the
run converges (early-returns; loop exhaustion is silent, first
counterexample conjunct), the returned ytm reprices the schedule to within
`1e-8` of `calculate_price(y, cfs, freq)`; consequently the returned ytm
is within `1e-6` of `y` for every schedule whose price curve separates
bracket yields at least `1e-6` apart by at least `1e-8` in price.  Without
that separation the yield-space round trip fails even inside the bracket
(second counterexample conjunct). -/
theorem c2_converged_round_trip (y : ℚ) (cfs : List CashFlow) (freq : ℕ)
    (hy1 : -1/5 ≤ y) (hy2 : y ≤ 1)
    (hret : solveStates (price_sum y cfs freq) cfs freq 100 ⟨1/20, -1/5, 1⟩ = none) :
    calculate_price y cfs freq = ((price_sum y cfs freq : ℚ) : WithTop ℚ) ∧
    |price_sum y cfs freq -
        price_sum (solve_ytm (price_sum y cfs freq) cfs freq (1/20)) cfs freq| <
      1/10^8 ∧
    ((∀ z : ℚ, -1/5 ≤ z → z ≤ 1 → 1/10^6 ≤ |z - y| →
        1/10^8 ≤ |price_sum z cfs freq - price_sum y cfs freq|) →
      |solve_ytm (price_sum y cfs freq) cfs freq (1/20) - y| < 1/10^6) := by
  have hprice := solveStates_none_price_bound (price_sum y cfs freq) cfs freq
    100 ⟨1/20, -1/5, 1⟩ hret
  refine ⟨?_, hprice, fun hsep => ?_⟩
  · unfold calculate_price
    rw [if_neg (not_le.2 (by linarith : (-1 : ℚ) < y))]
  · by_contra hfar
    push_neg at hfar
    have hrb := solveLoop_bounds (price_sum y cfs freq) cfs freq 100
      ⟨1/20, -1/5, 1⟩ rfl rfl (by norm_num) (by norm_num)
    rw [show solveLoop (price_sum y cfs freq) cfs freq 100 ⟨1/20, -1/5, 1⟩ =
      solve_ytm (price_sum y cfs freq) cfs freq (1/20) from rfl] at hrb hprice
    have hz := hsep (solve_ytm (price_sum y cfs freq) cfs freq (1/20))
      hrb.1 hrb.2 hfar
    rw [abs_sub_comm] at hz
    linarith

/-- Claim C2 (witness): the amended theorem at `y = 0.05` on a single
payment of 100 at year 1 — the run converges on its first iteration, and
the schedule's price curve (slope about -91 across the bracket) separates
bracket yields far more than the required 1e-8 per 1e-6, so the round trip
recovers the yield. -/
theorem c2_witness :
    |price_sum (1/20) [⟨1, 100⟩] 1 -
        price_sum (solve_ytm (price_sum (1/20) [⟨1, 100⟩] 1) [⟨1, 100⟩] 1 (1/20))
          [⟨1, 100⟩] 1| < 1/10^8 ∧
    |solve_ytm (price_sum (1/20) [⟨1, 100⟩] 1) [⟨1, 100⟩] 1 (1/20) - 1/20| <
      1/10^6 := by
  have hps : ∀ z : ℚ, price_sum z [⟨1, 100⟩] 1 = 100 / (1 + z) := by
    intro z
    unfold price_sum discount_exponent
    norm_num
  have hret : solveStates (price_sum (1/20) [⟨1, 100⟩] 1) [⟨1, 100⟩] 1 100
      ⟨1/20, -1/5, 1⟩ = none := by
    have hstep : solveStep (price_sum (1/20) [⟨1, 100⟩] 1) [⟨1, 100⟩] 1
        ⟨1/20, -1/5, 1⟩ = Sum.inr (1/20) := by
      unfold solveStep numDeriv price_sum discount_exponent
      norm_num [abs_lt]
    rw [show (100 : ℕ) = 99 + 1 from rfl]
    exact solveStates_early _ _ _ 99 _ _ hstep
  have hsep : ∀ z : ℚ, -1/5 ≤ z → z ≤ 1 → 1/10^6 ≤ |z - 1/20| →
      1/10^8 ≤ |price_sum z [⟨1, 100⟩] 1 - price_sum (1/20) [⟨1, 100⟩] 1| := by
    intro z hz1 hz2 hzfar
    rw [hps z, hps (1/20)]
    have hzpos : (0 : ℚ) < 1 + z := by linarith
    have heq : 100 / (1 + z) - 100 / (1 + 1/20) =
        100 * (1/20 - z) / ((1 + z) * (1 + 1/20)) := by
      field_simp
      ring
    rw [heq, abs_div, abs_of_pos (by nlinarith : (0 : ℚ) < (1 + z) * (1 + 1/20)),
      abs_mul, abs_of_pos (by norm_num : (0 : ℚ) < 100)]
    have hfar2 : 1/10^6 ≤ |1/20 - z| := by
      rw [abs_sub_comm]
      exact hzfar
    have hden : (1 + z) * (1 + 1/20) ≤ 21/10 := by nlinarith
    calc (1 : ℚ)/10^8 ≤ 100 * (1/10^6) / (21/10) := by norm_num
      _ ≤ 100 * |1/20 - z| / (21/10) := by
          apply div_le_div_of_nonneg_right ?_ (by norm_num)
          · exact mul_le_mul_of_nonneg_left hfar2 (by norm_num)
      _ ≤ 100 * |1/20 - z| / ((1 + z) * (1 + 1/20)) := by
          apply div_le_div_of_nonneg_left (by positivity)
            (by nlinarith : (0 : ℚ) < (1 + z) * (1 + 1/20)) hden
  have h := c2_converged_round_trip (1/20) [⟨1, 100⟩] 1 (by norm_num)
    (by norm_num) hret
  exact ⟨h.2.1, h.2.2 hsep⟩

/-- Claim C3 (counterexample): for the all-positive schedule of a single
payment of 100 at year 1 and the yield pair `-2 < -3/2`, both prices hit the
`float('inf')` floor (yields ≤ -1), so the price at the lower yield is not
strictly greater — strict monotonicity fails below the -1 yield floor. -/
theorem c3_counterexample :
    ¬ calculate_price (-3/2) [⟨1, 100⟩] 1 < calculate_price (-2) [⟨1, 100⟩] 1 := by
  unfold calculate_price
  rw [if_pos (by norm_num), if_pos (by norm_num)]
  exact lt_irrefl ⊤

lemma price_term_strict_anti (a : ℚ) (ha : 0 < a) (e : ℤ) (he : 1 ≤ e)
    (freq : ℕ) (hf : 1 ≤ freq) (y1 y2 : ℚ) (h1 : -1 < y1) (h12 : y1 < y2) :
    a / (1 + y2 / (freq : ℚ)) ^ e < a / (1 + y1 / (freq : ℚ)) ^ e := by
  have hfq : (0 : ℚ) < (freq : ℚ) := by exact_mod_cast hf
  have hfq1 : (1 : ℚ) ≤ (freq : ℚ) := by exact_mod_cast hf
  have hb1 : 0 < 1 + y1 / (freq : ℚ) := by
    have hnum : (0 : ℚ) < (freq : ℚ) + y1 := by linarith
    have := div_pos hnum hfq
    rw [add_div] at this
    rw [div_self (ne_of_gt hfq)] at this
    linarith
  have hb12 : 1 + y1 / (freq : ℚ) < 1 + y2 / (freq : ℚ) := by
    have := (div_lt_div_iff_of_pos_right hfq).2 h12
    linarith
  have hpow : (1 + y1 / (freq : ℚ)) ^ e < (1 + y2 / (freq : ℚ)) ^ e := by
    rw [show e = (e.toNat : ℤ) from (Int.toNat_of_nonneg (by omega)).symm,
      zpow_natCast, zpow_natCast]
    exact pow_lt_pow_left₀ hb12 hb1.le (by omega)
  exact div_lt_div_of_pos_left ha (zpow_pos hb1 e) hpow

lemma price_sum_strict_anti (cfs : List CashFlow) (freq : ℕ) (y1 y2 : ℚ)
    (hne : cfs ≠ [])
    (hpos : ∀ cf ∈ cfs, 0 < cf.amount ∧ 1 ≤ discount_exponent freq cf.time)
    (hf : 1 ≤ freq) (h1 : -1 < y1) (h12 : y1 < y2) :
    price_sum y2 cfs freq < price_sum y1 cfs freq := by
  induction cfs with
  | nil => exact absurd rfl hne
  | cons c rest ih =>
    have hc := hpos c (List.mem_cons_self c rest)
    have hterm := price_term_strict_anti c.amount hc.1 _ hc.2 freq hf y1 y2 h1 h12
    by_cases hrest : rest = []
    · subst hrest
      simpa [price_sum] using hterm
    · have hrec := ih hrest (fun cf hcf => hpos cf (List.mem_cons_of_mem c hcf))
      simp only [price_sum, List.map_cons, List.sum_cons] at hrec ⊢
      exact add_lt_add hterm hrec

/-- Claim C3 (amended): `calculate_price` is strictly decreasing in yield on
the domain `y > -1` for every nonempty schedule whose payments are positive
and fall at or after the first compounding period (`freq * time ≥ 1`); at or
below `y = -1` the source returns `float('inf')` for both yields and
strictness fails (see the counterexample). -/
theorem c3_strictly_decreasing (cfs : List CashFlow) (freq : ℕ) (y1 y2 : ℚ)
    (hne : cfs ≠ [])
    (hpos : ∀ cf ∈ cfs, 0 < cf.amount ∧ 1 ≤ discount_exponent freq cf.time)
    (hf : 1 ≤ freq) (h1 : -1 < y1) (h12 : y1 < y2) :
    calculate_price y2 cfs freq < calculate_price y1 cfs freq := by
  unfold calculate_price
  rw [if_neg (not_le.2 h1), if_neg (not_le.2 (h1.trans h12))]
  exact_mod_cast price_sum_strict_anti cfs freq y1 y2 hne hpos hf h1 h12

/-- Claim C3 (witness): amended strict monotonicity at yields `0 < 1/10` on
a single payment of 100 at year 1. -/
theorem c3_witness :
    calculate_price (1/10) [⟨1, 100⟩] 1 < calculate_price 0 [⟨1, 100⟩] 1 :=
  c3_strictly_decreasing [⟨1, 100⟩] 1 0 (1/10) (by simp)
    (by
      intro cf hcf
      simp only [List.mem_singleton] at hcf
      subst hcf
      norm_num [discount_exponent])
    le_rfl (by norm_num) (by norm_num)

/-! Helper lemmas for the expected-shortfall claim. -/

lemma np_sort_perm (l : List ℚ) : (np_sort l).Perm l :=
  List.perm_insertionSort _ l

lemma np_sort_mem {l : List ℚ} {x : ℚ} (h : x ∈ np_sort l) : x ∈ l :=
  (np_sort_perm l).mem_iff.mp h

lemma exists_list_max (l : List ℚ) (h : l ≠ []) :
    ∃ m ∈ l, ∀ x ∈ l, x ≤ m := by
  cases hm : l.maximum with
  | bot => exact absurd (List.maximum_eq_bot.mp hm) h
  | coe m =>
    exact ⟨m, List.maximum_mem hm, fun x hx => List.le_maximum_of_mem hx hm⟩

/-- The interpolated percentile of a nonempty sample at `q = 100·c`,
`0 ≤ c ≤ 1`, never exceeds some sample element (it is a convex combination
of two order statistics). -/
lemma calculate_var_le_some_element (losses : List ℚ) (c : ℚ)
    (hne : losses ≠ []) (h0 : 0 ≤ c) (h1 : c ≤ 1) :
    ∃ m ∈ losses, calculate_var losses c ≤ m := by
  obtain ⟨m, hm, hmax⟩ := exists_list_max losses hne
  refine ⟨m, hm, ?_⟩
  unfold calculate_var np_percentile
  have hn1 : (1 : ℚ) ≤ (losses.length : ℚ) := by
    have : 0 < losses.length := List.length_pos.2 hne
    exact_mod_cast this
  set n : ℚ := (losses.length : ℚ) with hn
  set hq : ℚ := (n - 1) * (c * 100) / 100 with hhq
  have hq0 : 0 ≤ hq := by
    rw [hhq]
    have : (0:ℚ) ≤ (n - 1) * (c * 100) :=
      mul_nonneg (by linarith) (by linarith)
    positivity
  have hqle : hq ≤ n - 1 := by
    rw [hhq, mul_div_assoc]
    have hc100 : c * 100 / 100 = c := by norm_num
    rw [hc100]
    exact mul_le_of_le_one_right (by linarith) h1
  have hfl0 : (0 : ℤ) ≤ ⌊hq⌋ := Int.floor_nonneg.2 hq0
  set i : ℕ := (⌊hq⌋).toNat with hi
  have hicast : ((i : ℚ)) = ((⌊hq⌋ : ℤ) : ℚ) := by
    rw [hi]
    norm_cast
    exact Int.toNat_of_nonneg hfl0
  have hiq : (i : ℚ) ≤ hq := by
    rw [hicast]
    exact Int.floor_le hq
  have hslen : (np_sort losses).length = losses.length :=
    (np_sort_perm losses).length_eq
  have hilt : i < losses.length := by
    have hlt : (i : ℚ) < n := lt_of_le_of_lt (hiq.trans hqle) (by linarith)
    rw [hn] at hlt
    exact_mod_cast hlt
  have hlo_mem : (np_sort losses).getD i 0 ∈ losses := by
    apply np_sort_mem
    rw [List.getD_eq_getElem _ _ (hslen ▸ hilt)]
    exact List.getElem_mem _
  set lo : ℚ := (np_sort losses).getD i 0 with hlo
  set hi2 : ℚ := (np_sort losses).getD (i + 1) lo with hhi2
  have hhi_mem : hi2 ∈ losses := by
    by_cases hrange : i + 1 < (np_sort losses).length
    · apply np_sort_mem
      rw [hhi2, List.getD_eq_getElem _ _ hrange]
      exact List.getElem_mem _
    · rw [hhi2, List.getD_eq_default _ _ (not_lt.1 hrange)]
      exact hlo_mem
  have hfr0 : 0 ≤ hq - (⌊hq⌋ : ℚ) := sub_nonneg.2 (Int.floor_le hq)
  have hfr1 : hq - (⌊hq⌋ : ℚ) < 1 := by
    have := Int.lt_floor_add_one hq
    push_cast at this ⊢
    linarith
  have hcomb : lo + (hq - (⌊hq⌋ : ℚ)) * (hi2 - lo) ≤ max lo hi2 := by
    rcases le_or_lt lo hi2 with hc2 | hc2
    · have : (hq - (⌊hq⌋ : ℚ)) * (hi2 - lo) ≤ 1 * (hi2 - lo) :=
        mul_le_mul_of_nonneg_right hfr1.le (by linarith)
      rw [max_eq_right hc2]
      linarith
    · have : (hq - (⌊hq⌋ : ℚ)) * (hi2 - lo) ≤ 0 :=
        mul_nonpos_of_nonneg_of_nonpos hfr0 (by linarith)
      rw [max_eq_left hc2.le]
      linarith
  have hmax2 : max lo hi2 ≤ m := max_le (hmax lo hlo_mem) (hmax hi2 hhi_mem)
  exact le_trans hcomb hmax2

lemma mul_length_le_sum (v : ℚ) :
    ∀ l : List ℚ, (∀ x ∈ l, v ≤ x) → v * l.length ≤ l.sum
  | [], _ => by simp
  | x :: xs, h => by
    have hrec := mul_length_le_sum v xs (fun y hy => h y (List.mem_cons_of_mem x hy))
    have hx := h x (List.mem_cons_self x xs)
    simp only [List.sum_cons, List.length_cons]
    push_cast
    linarith

/-- Claim C4: for every nonempty loss array and confidence level in (0,1),
`calculate_expected_shortfall` returns the mean of all losses at or above
the VaR at that confidence (the "no losses qualify" fallback of the source
can never fire: the sample maximum always qualifies), and consequently the
expected shortfall is at least `calculate_var` on the same inputs. -/
theorem c4_expected_shortfall (losses : List ℚ) (c : ℚ)
    (hne : losses ≠ []) (h0 : 0 < c) (h1 : c < 1) :
    losses.filter (fun l => calculate_var losses c ≤ l) ≠ [] ∧
    calculate_expected_shortfall losses c =
      (losses.filter (fun l => calculate_var losses c ≤ l)).sum /
        ((losses.filter (fun l => calculate_var losses c ≤ l)).length : ℚ) ∧
    calculate_var losses c ≤ calculate_expected_shortfall losses c := by
  obtain ⟨m, hm, hvm⟩ := calculate_var_le_some_element losses c hne h0.le h1.le
  set v : ℚ := calculate_var losses c with hv
  set tail : List ℚ := losses.filter (fun l => v ≤ l) with htail
  have hmem : m ∈ tail := by
    rw [htail]
    exact List.mem_filter.2 ⟨hm, by simpa using hvm⟩
  have htne : tail ≠ [] := List.ne_nil_of_mem hmem
  have hlen : tail.length ≠ 0 := fun hz => htne (List.length_eq_zero.mp hz)
  have hes : calculate_expected_shortfall losses c = tail.sum / (tail.length : ℚ) := by
    show (if tail.length ≠ 0 then tail.sum / (tail.length : ℚ) else v) =
      tail.sum / (tail.length : ℚ)
    rw [if_pos hlen]
  refine ⟨htne, hes, ?_⟩
  rw [hes]
  have hallv : ∀ x ∈ tail, v ≤ x := by
    intro x hx
    rw [htail] at hx
    simpa using (List.mem_filter.1 hx).2
  have hlenpos : (0 : ℚ) < (tail.length : ℚ) := by positivity
  rw [le_div_iff₀ hlenpos]
  exact mul_length_le_sum v tail hallv

/-- Claim C4 (witness): the theorem applied to the loss sample `[1, 2]` at
95% confidence. -/
theorem c4_witness :
    [(1 : ℚ), 2].filter (fun l => calculate_var [1, 2] (19/20) ≤ l) ≠ [] ∧
    calculate_expected_shortfall [1, 2] (19/20) =
      ([(1 : ℚ), 2].filter (fun l => calculate_var [1, 2] (19/20) ≤ l)).sum /
        (([(1 : ℚ), 2].filter (fun l => calculate_var [1, 2] (19/20) ≤ l)).length : ℚ) ∧
    calculate_var [1, 2] (19/20) ≤ calculate_expected_shortfall [1, 2] (19/20) :=
  c4_expected_shortfall [1, 2] (19/20) (by simp) (by norm_num) (by norm_num)

/-- Unit loss exactly as claim C1 states it: numerator uses the raw initial
price, denominator uses `max(initial_price, 0.01)`. -/
def unit_loss_spec (b : BondRow) (curve : ℚ → ℚ) : ℚ :=
  (b.market_price - price_sum (curve b.maturity) (get_cached_cfs b) b.frequency) /
    max b.market_price (1/100)

/-- CVaR objective exactly as claim C1 states it:
`alpha + (1/(S*(1-c))) * Σ_s max(0, loss_s - alpha)` with `loss_s` built from
`unit_loss_spec`. -/
def cvar_objective_spec (w_alpha : List ℚ) (bond_data : List BondRow)
    (scenarios : List (ℚ → ℚ)) (c : ℚ) : ℚ :=
  let n := bond_data.length
  let S := scenarios.length
  let alpha := w_alpha.getD n 0
  alpha + 1 / ((S : ℚ) * (1 - c)) *
    ∑ s in Finset.range S, max 0
      ((∑ i in Finset.range n, w_alpha.getD i 0 *
        unit_loss_spec (bond_data.getD i ⟨0, 0, 0, 1, 0, 0⟩)
          (scenarios.getD s (fun _ => 0))) - alpha)

/-- Unit loss as amended: the 0.01 floor replaces a non-positive initial
price entirely — in the numerator as well as the denominator — and a
positive initial price is used as is, however small. -/
def unit_loss_amended (b : BondRow) (curve : ℚ → ℚ) : ℚ :=
  let p := if 0 < b.market_price then b.market_price else 1/100
  (p - price_sum (curve b.maturity) (get_cached_cfs b) b.frequency) / p

/-- CVaR objective as amended (same Uryasev-Rockafellar shape as the claim,
with `unit_loss_amended` in place of the claimed unit loss). -/
def cvar_objective_amended (w_alpha : List ℚ) (bond_data : List BondRow)
    (scenarios : List (ℚ → ℚ)) (c : ℚ) : ℚ :=
  let n := bond_data.length
  let S := scenarios.length
  let alpha := w_alpha.getD n 0
  alpha + 1 / ((S : ℚ) * (1 - c)) *
    ∑ s in Finset.range S, max 0
      ((∑ i in Finset.range n, w_alpha.getD i 0 *
        unit_loss_amended (bond_data.getD i ⟨0, 0, 0, 1, 0, 0⟩)
          (scenarios.getD s (fun _ => 0))) - alpha)

lemma bond_unit_loss_eq_amended (b : BondRow) (curve : ℚ → ℚ) :
    bond_unit_loss b curve = unit_loss_amended b curve := by
  unfold bond_unit_loss unit_loss_amended
  rcases le_or_lt b.market_price 0 with h | h
  · rw [if_pos h, if_neg (not_lt.2 h)]
  · rw [if_neg (not_le.2 h), if_pos h]

lemma list_map_sum_getD {α : Type} (f : α → ℚ) (d : α) :
    ∀ l : List α, (l.map f).sum = ∑ i in Finset.range l.length, f (l.getD i d)
  | [] => by simp
  | x :: xs => by
    rw [List.map_cons, List.sum_cons, List.length_cons, Finset.sum_range_succ',
      list_map_sum_getD f d xs]
    simp [add_comm]

lemma scenario_loss_eq_range (bond_data : List BondRow) :
    ∀ (weights : List ℚ), weights.length = bond_data.length → ∀ curve : ℚ → ℚ,
      scenario_loss bond_data weights curve =
        ∑ i in Finset.range bond_data.length,
          weights.getD i 0 * bond_unit_loss (bond_data.getD i ⟨0, 0, 0, 1, 0, 0⟩) curve := by
  induction bond_data with
  | nil =>
    intro weights _ curve
    simp [scenario_loss]
  | cons b rest ih =>
    intro weights hlen curve
    cases weights with
    | nil => simp at hlen
    | cons w ws =>
      simp only [List.length_cons, Nat.succ.injEq] at hlen
      simp only [scenario_loss, List.zip_cons_cons, List.map_cons, List.sum_cons,
        List.length_cons, Finset.sum_range_succ']
      rw [show ((rest.zip ws).map (fun p => p.2 * bond_unit_loss p.1 curve)).sum =
          scenario_loss rest ws curve from rfl]
      rw [ih ws hlen curve]
      simp [add_comm]

lemma take_getD_of_lt (l : List ℚ) (n i : ℕ) (h : i < n) :
    (l.take n).getD i 0 = l.getD i 0 := by
  rw [List.getD_eq_getElem?_getD, List.getD_eq_getElem?_getD,
    List.getElem?_take, if_pos h]

/-- Claim C1 (counterexample): one zero-coupon degenerate bond whose market
price 0.005 is positive but below the floor 0.01.  The code divides by the
raw price (unit loss 1), while the claimed formula divides by
`max(0.005, 0.01) = 0.01` (unit loss 0.5); with one scenario, confidence
0.5, weights `[1]` and `alpha = 0` the two objectives are 2 and 1. -/
theorem c1_counterexample :
    cvar_objective [1, 0] [⟨0, 0, 0, 1, 0, 1/200⟩] [fun _ => 0] (1/2) ≠
      cvar_objective_spec [1, 0] [⟨0, 0, 0, 1, 0, 1/200⟩] [fun _ => 0] (1/2) := by
  unfold cvar_objective cvar_objective_spec scenario_loss bond_unit_loss
    unit_loss_spec get_cached_cfs generate_cash_flows pyRound price_sum
  norm_num [max_def, min_def, Finset.sum_range_succ]

/-- Claim C1 (amended): for every decision vector `w ++ [alpha]` (one entry
per bond plus the auxiliary variable), bond table, scenario set and
confidence level, the optimizer objective `_cvar_objective` equals
`alpha + (1/(S*(1-c))) * Σ_s max(0, loss_s - alpha)` where `loss_s` is the
weighted sum of per-bond unit losses `(p - scenario_price)/p`, with `p` the
initial market price when positive and the floor `0.01` otherwise (the
floor replaces non-positive prices entirely and does not apply to small
positive prices). -/
theorem c1_cvar_objective_formula (w_alpha : List ℚ) (bond_data : List BondRow)
    (scenarios : List (ℚ → ℚ)) (c : ℚ)
    (hw : w_alpha.length = bond_data.length + 1) :
    cvar_objective w_alpha bond_data scenarios c =
      cvar_objective_amended w_alpha bond_data scenarios c := by
  unfold cvar_objective cvar_objective_amended
  simp only [List.map_map, Function.comp_def]
  congr 2
  rw [list_map_sum_getD (f := fun curve =>
      max (scenario_loss bond_data (w_alpha.take bond_data.length) curve -
        w_alpha.getD bond_data.length 0) 0) (d := fun _ => (0 : ℚ)) scenarios]
  apply Finset.sum_congr rfl
  intro s _
  rw [max_comm]
  congr 1
  rw [scenario_loss_eq_range bond_data (w_alpha.take bond_data.length)
    (by rw [List.length_take, hw]; omega) (scenarios.getD s (fun _ => 0))]
  congr 1
  apply Finset.sum_congr rfl
  intro i hi
  rw [take_getD_of_lt w_alpha bond_data.length i (Finset.mem_range.1 hi),
    bond_unit_loss_eq_amended]

/-- Claim C1 (witness): the amended formula applied at the counterexample's
concrete input. -/
theorem c1_witness :
    cvar_objective [1, 0] [⟨0, 0, 0, 1, 0, 1/200⟩] [fun _ => 0] (1/2) =
      cvar_objective_amended [1, 0] [⟨0, 0, 0, 1, 0, 1/200⟩] [fun _ => 0] (1/2) :=
  c1_cvar_objective_formula [1, 0] [⟨0, 0, 0, 1, 0, 1/200⟩] [fun _ => 0] (1/2)
    (by simp)

/-! Helper lemmas for the constraints claim. -/

lemma np_dot_some_of_len {a b : List ℚ} (h : a.length = b.length) :
    np_dot a b = some (((a.zip b).map (fun p => p.1 * p.2)).sum) := by
  unfold np_dot
  rw [if_pos h]

/-- Whenever `check_constraints` succeeds, the `max_weight_excess` entry is
exactly the guarded expression of the source. -/
lemma check_constraints_mwe (cfg : PortfolioConstraints) (weights : List ℚ)
    (chars : List BondChar) (v : Violations)
    (h : check_constraints cfg weights chars = some v) :
    v.max_weight_excess =
      if weights.any (fun w => cfg.max_weight + 1/10^7 < w) then
        some (npMax weights - cfg.max_weight)
      else none := by
  unfold check_constraints at h
  cases hd : cfg.target_duration with
  | none =>
    rw [hd] at h
    cases hc : cfg.target_convexity with
    | none =>
      rw [hc] at h
      cases h
      rfl
    | some tc =>
      rw [hc] at h
      cases hnp : np_dot weights (chars.map (fun ch => ch.convexity)) with
      | none => rw [hnp] at h; cases h
      | some curr =>
        rw [hnp] at h
        cases h
        rfl
  | some td =>
    rw [hd] at h
    cases hnp : np_dot weights (chars.map (fun ch => ch.mod_duration)) with
    | none => rw [hnp] at h; cases h
    | some curr =>
      rw [hnp] at h
      cases hc : cfg.target_convexity with
      | none =>
        rw [hc] at h
        cases h
        rfl
      | some tc =>
        rw [hc] at h
        cases hnp2 : np_dot weights (chars.map (fun ch => ch.convexity)) with
        | none => rw [hnp2] at h; cases h
        | some curr2 =>
          rw [hnp2] at h
          cases h
          rfl

lemma check_constraints_total (cfg : PortfolioConstraints) (weights : List ℚ)
    (chars : List BondChar) (hlen : chars.length = weights.length) :
    ∃ v, check_constraints cfg weights chars = some v := by
  unfold check_constraints
  have hdur : (chars.map (fun ch => ch.mod_duration)).length = weights.length := by
    rw [List.length_map, hlen]
  have hconv : (chars.map (fun ch => ch.convexity)).length = weights.length := by
    rw [List.length_map, hlen]
  cases hd : cfg.target_duration with
  | none =>
    cases hc : cfg.target_convexity with
    | none => exact ⟨_, rfl⟩
    | some tc => rw [np_dot_some_of_len hconv.symm]; exact ⟨_, rfl⟩
  | some td =>
    rw [np_dot_some_of_len hdur.symm]
    cases hc : cfg.target_convexity with
    | none => exact ⟨_, rfl⟩
    | some tc => rw [np_dot_some_of_len hconv.symm]; exact ⟨_, rfl⟩

/-- Claim C8 (counterexample): the "never raises" part of the claim fails —
with a duration target set and a characteristics table shorter than the
weight vector, the `np.dot` inside `check_constraints` raises a numpy
`ValueError` (modelled as `none`). -/
theorem c8_counterexample :
    check_constraints ⟨some 5, none, 1, 0, 1/20, 1/2⟩ [1] [] = none := by
  unfold check_constraints np_dot
  norm_num

/-- Claim C8 (amended): `check_constraints` includes the key
`max_weight_excess` iff some weight exceeds `max_weight + 1e-7`, its
magnitude then equals `max(weights) - max_weight`, and on the literal case
`weights = [0, 0, 1]`, `max_weight = 0.4` the returned mapping contains
`max_weight_excess` with magnitude 0.6; `check_constraints` never raises
provided the characteristics table has one row per weight (with a mismatch
and a duration or convexity target set, the `np.dot` raises — see the
counterexample). -/
theorem c8_max_weight_check (cfg : PortfolioConstraints) (weights : List ℚ)
    (chars : List BondChar) :
    (chars.length = weights.length →
      ∃ v, check_constraints cfg weights chars = some v) ∧
    (∀ v, check_constraints cfg weights chars = some v →
      (v.max_weight_excess.isSome ↔ ∃ w ∈ weights, cfg.max_weight + 1/10^7 < w) ∧
      (∀ m, v.max_weight_excess = some m → m = npMax weights - cfg.max_weight)) ∧
    check_constraints ⟨none, none, 2/5, 0, 1/20, 1/2⟩ [0, 0, 1] chars =
      some ⟨none, some (3/5), none, none, none⟩ := by
  refine ⟨check_constraints_total cfg weights chars, fun v h => ?_, ?_⟩
  · have hm := check_constraints_mwe cfg weights chars v h
    by_cases hany : weights.any (fun w => cfg.max_weight + 1/10^7 < w)
    · rw [if_pos hany] at hm
      constructor
      · rw [hm]
        simp only [Option.isSome_some, true_iff]
        obtain ⟨w, hw, hwgt⟩ := List.any_eq_true.1 hany
        exact ⟨w, hw, by simpa using hwgt⟩
      · intro m hmv
        rw [hm] at hmv
        exact (Option.some_inj.1 hmv).symm
    · rw [if_neg hany] at hm
      constructor
      · rw [hm]
        simp only [Option.isSome_none, Bool.false_eq_true, false_iff]
        intro ⟨w, hw, hwgt⟩
        exact hany (List.any_eq_true.2 ⟨w, hw, by simpa using hwgt⟩)
      · intro m hmv
        rw [hm] at hmv
        cases hmv
  · unfold check_constraints npMax
    norm_num

/-! Helper lemmas for the simulator turnover claim. -/

lemma turnover_nonneg (a b : List ℚ) : 0 ≤ turnover a b := by
  apply List.sum_nonneg
  intro x hx
  simp only [turnover, List.mem_map] at hx
  obtain ⟨p, -, rfl⟩ := hx
  exact abs_nonneg _

lemma turnover_le_sum_add_sum :
    ∀ (a b : List ℚ), a.length = b.length → (∀ x ∈ a, 0 ≤ x) →
      (∀ x ∈ b, 0 ≤ x) → turnover a b ≤ a.sum + b.sum
  | [], [], _, _, _ => by simp [turnover]
  | [], _ :: _, h, _, _ => by simp at h
  | _ :: _, [], h, _, _ => by simp at h
  | x :: xs, y :: ys, h, ha, hb => by
    simp only [List.length_cons, Nat.succ.injEq] at h
    have hrec := turnover_le_sum_add_sum xs ys h
      (fun z hz => ha z (List.mem_cons_of_mem x hz))
      (fun z hz => hb z (List.mem_cons_of_mem y hz))
    have hx := ha x (List.mem_cons_self x xs)
    have hy := hb y (List.mem_cons_self y ys)
    have hxy : |x - y| ≤ x + y := abs_sub_le_iff.2 ⟨by linarith, by linarith⟩
    simp only [turnover, List.zip_cons_cons, List.map_cons, List.sum_cons] at hrec ⊢
    linarith

/-- Claim C9: every turnover value recorded in the simulation history — the
L1 distance between the re-optimised and the previous weight vector — lies
in `[0, 2]`, given that the initial weights and every optimizer output are
probability-simplex vectors of a common dimension (the SLSQP optimizer is
abstracted by the list of its per-step outputs; its constraint set is
exactly the simplex with concentration bounds). -/
theorem c9_turnover_in_zero_two (w0 : List ℚ) (ws : List (List ℚ)) (i : ℕ)
    (h0 : w0.sum = 1 ∧ ∀ x ∈ w0, 0 ≤ x)
    (hs : ∀ w ∈ ws, (w.sum = 1 ∧ ∀ x ∈ w, 0 ≤ x) ∧ w.length = w0.length) :
    ∀ e ∈ run_sim_history w0 ws i, 0 ≤ e.turnover ∧ e.turnover ≤ 2 := by
  induction ws generalizing w0 i with
  | nil =>
    intro e he
    simp [run_sim_history] at he
  | cons w rest ih =>
    intro e he
    have hw := hs w (List.mem_cons_self w rest)
    simp only [run_sim_history, List.mem_cons] at he
    rcases he with rfl | he
    · refine ⟨turnover_nonneg w w0, ?_⟩
      have := turnover_le_sum_add_sum w w0 hw.2 hw.1.2 h0.2
      rw [hw.1.1, h0.1] at this
      linarith
    · refine ih w (i + 1) hw.1 (fun v hv => ?_) e he
      have hv2 := hs v (List.mem_cons_of_mem w hv)
      exact ⟨hv2.1, hv2.2.trans hw.2.symm⟩

/-- Claim C9 (witness): the entry recorded for a two-asset rebalance from
`[1/2, 1/2]` to `[1, 0]` (turnover 1) has its turnover in `[0, 2]`. -/
theorem c9_witness :
    0 ≤ (⟨1, turnover [1, 0] [1/2, 1/2]⟩ : HistoryEntry).turnover ∧
    (⟨1, turnover [1, 0] [1/2, 1/2]⟩ : HistoryEntry).turnover ≤ 2 :=
  c9_turnover_in_zero_two [1/2, 1/2] [[1, 0]] 0
    (by norm_num)
    (by
      intro w hw
      simp only [List.mem_singleton] at hw
      subst hw
      norm_num)
    ⟨1, turnover [1, 0] [1/2, 1/2]⟩
    (by simp [run_sim_history])

end FIE
